import Mathlib

/-!
Verification of the template mini-language of `tagname` (`src/main.rs`):
the tokenizer and compiler (`Format::from_template`), field parsing
(`Tag::from_str`), field resolution (`Tag::read_from`) and evaluation
(`Format::build_name`), as a shallow embedding in Lean.
-/

namespace TagName

/-- The regex character class `[a-z]`: one lowercase ASCII letter. -/
def isLowerAscii (c : Char) : Bool := 'a' ≤ c && c ≤ 'z'

/-- The regex character class `[^%]`: any character other than `%`. -/
def notPct (c : Char) : Bool := c ≠ '%'

/-- One match of the scanner regex `(%[a-z]+)|([^%]+)`: capture group 1
(a field reference; the stored list is the key, without the leading `%`)
or capture group 2 (a literal run). -/
inductive Token
  | field : List Char → Token
  | lit : List Char → Token
deriving DecidableEq

/-- The full text of the template consumed by one token: group 1 matches
`%` followed by the key letters; group 2 matches exactly the literal run. -/
def Token.text : Token → List Char
  | .field k => '%' :: k
  | .lit l => l

/-- Concatenation, in order, of the template text consumed by each token. -/
def consumed : List Token → List Char
  | [] => []
  | t :: ts => t.text ++ consumed ts

/-- The scan performed by `Regex::captures_iter` with the regex
`(%[a-z]+)|([^%]+)` in `Format::from_template`: at each position, a `%`
followed by one or more lowercase ASCII letters matches group 1 greedily;
otherwise a maximal nonempty run of non-`%` characters matches group 2;
at a position where neither alternative matches (a `%` not followed by a
lowercase letter) the iterator skips one character and resumes. -/
def tokenize : List Char → List Token
  | [] => []
  | c :: rest =>
    if c = '%' then
      if rest.takeWhile isLowerAscii = [] then
        tokenize (rest.dropWhile isLowerAscii)
      else
        Token.field (rest.takeWhile isLowerAscii) ::
          tokenize (rest.dropWhile isLowerAscii)
    else
      Token.lit ((c :: rest).takeWhile notPct) ::
        tokenize ((c :: rest).dropWhile notPct)
termination_by cs => cs.length
decreasing_by
  · exact Nat.lt_succ_of_le (List.dropWhile_suffix isLowerAscii).length_le
  · exact Nat.lt_succ_of_le (List.dropWhile_suffix isLowerAscii).length_le
  · rename_i h
    have hc : notPct c = true := by simp [notPct, h]
    calc ((c :: rest).dropWhile notPct).length
        = (rest.dropWhile notPct).length := by rw [List.dropWhile_cons_of_pos hc]
      _ ≤ rest.length := (List.dropWhile_suffix notPct).length_le
      _ < (c :: rest).length := by simp

/-- The `Tag` enum of the source: the closed set of recognized fields. -/
inductive Tag
  | Album
  | Artist
  | Title
  | Track
  | Year
deriving DecidableEq

/-- The canonical lowercase name each `Tag` is parsed from in
`Tag::from_str`. -/
def Tag.name : Tag → String
  | .Album => "album"
  | .Artist => "artist"
  | .Title => "title"
  | .Track => "track"
  | .Year => "year"

/-- The `Display` impl for `Tag`: the display name used in error messages. -/
def Tag.display : Tag → String
  | .Album => "Album"
  | .Artist => "Artist"
  | .Title => "Title"
  | .Track => "Track"
  | .Year => "Year"

/-- The `Error` enum of the source. `AudioTags` is the opaque pass-through
variant for collaborator failures; `Format` is the bad-format-key
(unknown-field) compile error; `MissingTag` is the missing-field
evaluation error, carrying the field. -/
inductive Error
  | AudioTags : String → Error
  | Format : String → Error
  | MissingTag : Tag → Error
deriving DecidableEq

/-- The `Display` impl for `Error` (via `thiserror` attributes). -/
def Error.display : Error → String
  | .AudioTags e => e
  | .Format s => "bad format key: " ++ s
  | .MissingTag t => "missing required tag: " ++ t.display

/-- `Tag::from_str`: strip leading `%` characters
(`trim_start_matches('%')`) and match the remainder against the five
canonical lowercase names; anything else is `Error::Format` carrying the
trimmed key. -/
def Tag.from_str (s : String) : Except Error Tag :=
  let s' := String.mk (s.data.dropWhile (fun c => c = '%'))
  if s' = "album" then .ok .Album
  else if s' = "artist" then .ok .Artist
  else if s' = "title" then .ok .Title
  else if s' = "track" then .ok .Track
  else if s' = "year" then .ok .Year
  else .error (.Format s')

/-- The `Album` value returned by the `audiotags` collaborator: the code
uses only its `title` component. -/
structure AlbumInfo where
  title : String
deriving DecidableEq

/-- The metadata record (`Box<dyn AudioTag>`) as seen by the core: the
five read-only optional accessors the code calls. Track numbers are `u16`
and years `i32` in the collaborator, modelled as `Nat` and `Int`. -/
structure AudioMeta where
  album : Option AlbumInfo
  artist : Option String
  title : Option String
  track_number : Option Nat
  year : Option Int
deriving DecidableEq

/-- `Tag::read_from`: resolve one field against the record, `Album` taking
the album's `title` component, `Track` and `Year` converted with
`to_string` (decimal), absence giving `Error::MissingTag(self)`. -/
def Tag.read_from : Tag → AudioMeta → Except Error String
  | .Album, meta =>
    match meta.album with
    | some a => .ok a.title
    | none => .error (.MissingTag .Album)
  | .Artist, meta =>
    match meta.artist with
    | some s => .ok s
    | none => .error (.MissingTag .Artist)
  | .Title, meta =>
    match meta.title with
    | some s => .ok s
    | none => .error (.MissingTag .Title)
  | .Track, meta =>
    match meta.track_number with
    | some n => .ok (toString n)
    | none => .error (.MissingTag .Track)
  | .Year, meta =>
    match meta.year with
    | some y => .ok (toString y)
    | none => .error (.MissingTag .Year)

/-- The record has no value for the field (the accessor returns `None`). -/
def Tag.absent : Tag → AudioMeta → Prop
  | .Album, meta => meta.album = none
  | .Artist, meta => meta.artist = none
  | .Title, meta => meta.title = none
  | .Track, meta => meta.track_number = none
  | .Year, meta => meta.year = none

instance (t : Tag) (meta : AudioMeta) : Decidable (t.absent meta) := by
  cases t <;> simp only [Tag.absent] <;> infer_instance

/-- The `Element` enum of the source. -/
inductive Element
  | Tag : Tag → Element
  | Literal : String → Element
deriving DecidableEq

/-- The `Format` struct of the source: the compiled template. -/
structure Format where
  elements : List Element
deriving DecidableEq

/-- The per-capture closure in `Format::from_template`: group 1 (the full
match `%key`) is parsed with `Tag::from_str` into `Element::Tag`; group 2
becomes `Element::Literal` verbatim. -/
def elementOf : Token → Except Error Element
  | .field k => (Tag.from_str (String.mk ('%' :: k))).map Element.Tag
  | .lit l => .ok (Element.Literal (String.mk l))

/-- `collect::<Result<Vec<_>>>()` over the mapped captures: all elements
in order, or the first error. -/
def collectElements : List Token → Except Error (List Element)
  | [] => .ok []
  | tok :: rest =>
    match elementOf tok, collectElements rest with
    | .ok e, .ok es => .ok (e :: es)
    | .error er, _ => .error er
    | .ok _, .error er => .error er

/-- `Format::from_template`: tokenize the template and collect the parsed
elements. -/
def Format.from_template (template : String) : Except Error Format :=
  (collectElements (tokenize template.data)).map Format.mk

/-- The loop of `Format::build_name`: fold the elements left to right onto
the accumulated output string, returning the first resolution error. -/
def buildLoop (meta : AudioMeta) : String → List Element → Except Error String
  | f, [] => .ok f
  | f, Element.Tag t :: rest =>
    match t.read_from meta with
    | .ok v => buildLoop meta (f ++ v) rest
    | .error e => .error e
  | f, Element.Literal l :: rest => buildLoop meta (f ++ l) rest

/-- `Format::build_name`: evaluate the compiled template against one
record. -/
def Format.build_name (fmt : Format) (meta : AudioMeta) : Except Error String :=
  buildLoop meta "" fmt.elements

/-- Resolution of a single element: a literal resolves to its own text, a
field reference via `Tag::read_from`. -/
def resolveElement (meta : AudioMeta) : Element → Except Error String
  | Element.Tag t => t.read_from meta
  | Element.Literal l => .ok l

/-- Resolve every element in order, or return the first error. -/
def resolveAll (meta : AudioMeta) : List Element → Except Error (List String)
  | [] => .ok []
  | e :: rest =>
    match resolveElement meta e, resolveAll meta rest with
    | .ok v, .ok vs => .ok (v :: vs)
    | .error er, _ => .error er
    | .ok _, .error er => .error er

/-- Concatenation of a list of strings in order. -/
def concatAll : List String → String
  | [] => ""
  | s :: ss => s ++ concatAll ss

/-- A template with each `%` that is not immediately followed by a
lowercase ASCII letter removed. -/
def removeStray : List Char → List Char
  | [] => []
  | c :: rest =>
    if c = '%' then
      if rest.takeWhile isLowerAscii = [] then removeStray rest
      else '%' :: removeStray rest
    else c :: removeStray rest

/-- A record with every field absent. -/
def emptyMeta : AudioMeta :=
  { album := none, artist := none, title := none, track_number := none,
    year := none }

/-- The record of the order-preservation example. -/
def bocMeta : AudioMeta :=
  { album := none, artist := some "Boards of Canada",
    title := some "Roygbiv", track_number := none, year := none }

/-- The record of the numeric-formatting example. -/
def numMeta : AudioMeta :=
  { album := none, artist := none, title := none, track_number := some 7,
    year := some 1998 }

/-!
### Helper lemmas

Facts about the tokenizer, the key parser and the evaluation loop, shared
by the claim theorems below.
-/

theorem takeWhile_nil_dropWhile {p : Char → Bool} {l : List Char}
    (h : l.takeWhile p = []) : l.dropWhile p = l := by
  cases l with
  | nil => rfl
  | cons c cs =>
    by_cases hc : p c
    · rw [List.takeWhile_cons_of_pos hc] at h
      exact absurd h (by simp)
    · exact List.dropWhile_cons_of_neg hc

theorem tokenize_nil : tokenize [] = [] := by
  simp [tokenize]

theorem tokenize_stray (rest : List Char)
    (h : rest.takeWhile isLowerAscii = []) :
    tokenize ('%' :: rest) = tokenize rest := by
  rw [tokenize]
  simp [h, takeWhile_nil_dropWhile h]

theorem tokenize_fieldTok (rest : List Char)
    (h : rest.takeWhile isLowerAscii ≠ []) :
    tokenize ('%' :: rest) =
      Token.field (rest.takeWhile isLowerAscii) ::
        tokenize (rest.dropWhile isLowerAscii) := by
  rw [tokenize]
  simp [h]

theorem tokenize_litTok (c : Char) (rest : List Char) (h : c ≠ '%') :
    tokenize (c :: rest) =
      Token.lit ((c :: rest).takeWhile notPct) ::
        tokenize ((c :: rest).dropWhile notPct) := by
  rw [tokenize]
  simp [h]

theorem isLowerAscii_ne_pct {c : Char} (h : isLowerAscii c = true) :
    c ≠ '%' := by
  intro he
  subst he
  simp [isLowerAscii] at h

theorem removeStray_append_lower {k : List Char} (rest : List Char)
    (h : ∀ c ∈ k, isLowerAscii c = true) :
    removeStray (k ++ rest) = k ++ removeStray rest := by
  induction k with
  | nil => rfl
  | cons c cs ih =>
    have hc : isLowerAscii c = true := h c (List.mem_cons_self ..)
    have hne : c ≠ '%' := isLowerAscii_ne_pct hc
    simp only [List.cons_append, removeStray, if_neg hne, List.append_eq]
    rw [ih (fun d hd => h d (List.mem_cons_of_mem _ hd))]

theorem removeStray_keep (rest : List Char)
    (h : rest.takeWhile isLowerAscii ≠ []) :
    removeStray ('%' :: rest) = '%' :: removeStray rest := by
  simp [removeStray, h]

theorem removeStray_drop (rest : List Char)
    (h : rest.takeWhile isLowerAscii = []) :
    removeStray ('%' :: rest) = removeStray rest := by
  simp [removeStray, h]

theorem removeStray_cons (c : Char) (rest : List Char) (h : c ≠ '%') :
    removeStray (c :: rest) = c :: removeStray rest := by
  simp [removeStray, h]

theorem removeStray_split (l : List Char) :
    removeStray l = l.takeWhile notPct ++ removeStray (l.dropWhile notPct) := by
  induction l with
  | nil => rfl
  | cons c cs ih =>
    by_cases hc : c = '%'
    · subst hc
      have h1 : notPct '%' = false := by simp [notPct]
      rw [List.takeWhile_cons_of_neg (by simp [h1]),
        List.dropWhile_cons_of_neg (by simp [h1])]
      rfl
    · have h1 : notPct c = true := by simp [notPct, hc]
      rw [List.takeWhile_cons_of_pos h1, List.dropWhile_cons_of_pos h1]
      simp only [removeStray, if_neg hc, List.cons_append]
      rw [ih]

theorem mem_takeWhile_lower {k : List Char} {c : Char}
    (h : c ∈ k.takeWhile isLowerAscii) : isLowerAscii c = true :=
  List.mem_takeWhile_imp h

/-- Full coverage up to stray percent signs: the text consumed by the
tokens, concatenated in order, is the template with every `%` not
followed by a lowercase ASCII letter removed. -/
theorem consumed_tokenize (cs : List Char) :
    consumed (tokenize cs) = removeStray cs := by
  induction cs using tokenize.induct with
  | case1 => rw [tokenize_nil]; rfl
  | case2 rest h ih =>
    rw [tokenize_stray rest h, takeWhile_nil_dropWhile h] at *
    rw [removeStray_drop rest h]
    exact ih
  | case3 rest h ih =>
    rw [tokenize_fieldTok rest h, removeStray_keep rest h]
    simp only [consumed, Token.text, List.cons_append]
    rw [ih]
    have hsplit :
        rest = rest.takeWhile isLowerAscii ++ rest.dropWhile isLowerAscii :=
      (List.takeWhile_append_dropWhile ..).symm
    conv => rhs; rw [hsplit]
    rw [removeStray_append_lower _ (fun c hc => mem_takeWhile_lower hc)]
  | case4 c rest h ih =>
    rw [tokenize_litTok c rest h]
    simp only [consumed, Token.text]
    rw [ih, removeStray_split (c :: rest)]

theorem dropWhile_head_false {p : Char → Bool} :
    ∀ {l : List Char} {d : Char} {ds : List Char},
      l.dropWhile p = d :: ds → p d = false := by
  intro l
  induction l with
  | nil => intro d ds h; exact absurd h (by simp)
  | cons c cs ih =>
    intro d ds h
    by_cases hc : p c
    · rw [List.dropWhile_cons_of_pos hc] at h
      exact ih h
    · rw [List.dropWhile_cons_of_neg hc] at h
      injection h with h1 _
      subst h1
      cases hb : p c with
      | false => rfl
      | true => exact absurd hb hc

/-- Every field token emitted by the tokenizer has a nonempty,
all-lowercase key. -/
theorem tokenize_field_mem {cs k : List Char}
    (h : Token.field k ∈ tokenize cs) :
    k ≠ [] ∧ ∀ c ∈ k, isLowerAscii c = true := by
  induction cs using tokenize.induct with
  | case1 => rw [tokenize_nil] at h; exact absurd h (List.not_mem_nil _)
  | case2 rest hr ih =>
    rw [tokenize_stray rest hr] at h
    exact ih (by rwa [takeWhile_nil_dropWhile hr])
  | case3 rest hr ih =>
    rw [tokenize_fieldTok rest hr] at h
    rcases List.mem_cons.mp h with heq | hmem
    · simp only [Token.field.injEq] at heq
      subst heq
      exact ⟨hr, fun c hc => mem_takeWhile_lower hc⟩
    · exact ih hmem
  | case4 c rest hc ih =>
    rw [tokenize_litTok c rest hc] at h
    rcases List.mem_cons.mp h with heq | hmem
    · exact absurd heq (by simp)
    · exact ih hmem

/-- Literal tokens are nonempty, contain no `%`, and are maximal: the
unconsumed input after a literal token is empty or begins with `%`. -/
theorem tokenize_lit_maximal :
    ∀ cs : List Char, ∀ (toks₁ : List Token) (l : List Char)
      (toks₂ : List Token),
      tokenize cs = toks₁ ++ Token.lit l :: toks₂ →
      l ≠ [] ∧ (∀ c ∈ l, c ≠ '%') ∧
        ∃ rest, (l ++ rest) <:+ cs ∧ tokenize rest = toks₂ ∧
          (rest = [] ∨ ∃ r, rest = '%' :: r) := by
  intro cs
  induction cs using tokenize.induct with
  | case1 =>
    intro toks₁ l toks₂ h
    rw [tokenize_nil] at h
    exact absurd h.symm (List.append_ne_nil_of_right_ne_nil _ (by simp))
  | case2 rest hr ih =>
    intro toks₁ l toks₂ h
    rw [tokenize_stray rest hr, takeWhile_nil_dropWhile hr] at *
    obtain ⟨h1, h2, r, hsuf, htok, hshape⟩ := ih toks₁ l toks₂ h
    exact ⟨h1, h2, r, hsuf.trans (List.suffix_cons '%' rest), htok, hshape⟩
  | case3 rest hr ih =>
    intro toks₁ l toks₂ h
    rw [tokenize_fieldTok rest hr] at h
    match toks₁, h with
    | [], h => exact absurd h (by simp)
    | t₀ :: toks₁', h =>
      rw [List.cons_append] at h
      have h2 : tokenize (rest.dropWhile isLowerAscii) =
          toks₁' ++ Token.lit l :: toks₂ := by
        injection h with _ h2
      obtain ⟨h1, hnp, r, hsuf, htok, hshape⟩ := ih toks₁' l toks₂ h2
      refine ⟨h1, hnp, r, ?_, htok, hshape⟩
      exact hsuf.trans ((List.dropWhile_suffix isLowerAscii).trans
        (List.suffix_cons '%' rest))
  | case4 c rest hc ih =>
    intro toks₁ l toks₂ h
    rw [tokenize_litTok c rest hc] at h
    match toks₁, h with
    | [], h =>
      rw [List.nil_append] at h
      have hl : l = (c :: rest).takeWhile notPct := by
        injection h with h1 _
        injection h1 with h1'
        exact h1'.symm
      have ht : tokenize ((c :: rest).dropWhile notPct) = toks₂ := by
        injection h with _ h2
      subst hl
      have hcp : notPct c = true := by simp [notPct, hc]
      refine ⟨by rw [List.takeWhile_cons_of_pos hcp]; simp,
        fun d hd => by
          have := List.mem_takeWhile_imp hd
          simpa [notPct] using this,
        (c :: rest).dropWhile notPct,
        by rw [List.takeWhile_append_dropWhile],
        ht, ?_⟩
      cases hdrop : (c :: rest).dropWhile notPct with
      | nil => exact Or.inl rfl
      | cons d ds =>
        right
        refine ⟨ds, ?_⟩
        have hd : notPct d = false := dropWhile_head_false hdrop
        have : d = '%' := by
          by_contra hne
          simp [notPct, hne] at hd
        rw [this]
    | t₀ :: toks₁', h =>
      rw [List.cons_append] at h
      have h2 : tokenize ((c :: rest).dropWhile notPct) =
          toks₁' ++ Token.lit l :: toks₂ := by
        injection h with _ h2
      obtain ⟨h1, hnp, r, hsuf, htok, hshape⟩ := ih toks₁' l toks₂ h2
      exact ⟨h1, hnp, r,
        hsuf.trans (List.dropWhile_suffix notPct), htok, hshape⟩

theorem dropWhile_pct_cons (k : List Char) :
    ('%' :: k).dropWhile (fun c => c = '%') = k.dropWhile (fun c => c = '%') :=
  List.dropWhile_cons_of_pos (by simp)

theorem dropWhile_pct_eq_self {k : List Char} (hk : k.head? ≠ some '%') :
    k.dropWhile (fun c => c = '%') = k := by
  cases k with
  | nil => rfl
  | cons c cs =>
    have hc : c ≠ '%' := by
      intro h
      exact hk (by rw [h]; rfl)
    exact List.dropWhile_cons_of_neg (by simp [hc])

/-- Characterization of `Tag::from_str` on a single-`%` token text: the
key after the `%` must equal the canonical lowercase name exactly. -/
theorem from_str_ok_iff {k : List Char} (hk : k.head? ≠ some '%') (t : Tag) :
    Tag.from_str (String.mk ('%' :: k)) = .ok t ↔ String.mk k = t.name := by
  have hdrop : ('%' :: k).dropWhile (fun c => c = '%') = k := by
    rw [dropWhile_pct_cons, dropWhile_pct_eq_self hk]
  simp only [Tag.from_str, hdrop]
  cases t <;> simp only [Tag.name] <;>
    constructor <;> intro h
  all_goals
    first
    | (split_ifs at h <;> simp_all)
    | (split_ifs <;> simp_all)

theorem from_str_unknown {k : List Char} (hk : k.head? ≠ some '%')
    (h : ∀ t : Tag, String.mk k ≠ t.name) :
    Tag.from_str (String.mk ('%' :: k)) = .error (.Format (String.mk k)) := by
  have hdrop : ('%' :: k).dropWhile (fun c => c = '%') = k := by
    rw [dropWhile_pct_cons, dropWhile_pct_eq_self hk]
  simp only [Tag.from_str, hdrop]
  have h1 := h Tag.Album
  have h2 := h Tag.Artist
  have h3 := h Tag.Title
  have h4 := h Tag.Track
  have h5 := h Tag.Year
  simp only [Tag.name] at h1 h2 h3 h4 h5
  simp [h1, h2, h3, h4, h5]

theorem read_from_absent {t : Tag} {meta : AudioMeta} (h : t.absent meta) :
    t.read_from meta = .error (.MissingTag t) := by
  cases t <;> simp only [Tag.absent] at h <;> simp [Tag.read_from, h]

theorem read_from_present {t : Tag} {meta : AudioMeta} (h : ¬ t.absent meta) :
    ∃ v, t.read_from meta = .ok v := by
  cases t <;> simp only [Tag.absent] at h <;>
    simp only [Tag.read_from] <;>
    [cases hv : meta.album; cases hv : meta.artist; cases hv : meta.title;
      cases hv : meta.track_number; cases hv : meta.year] <;>
    simp_all

/-- The loop of `build_name` computes, for any accumulator, the
accumulator followed by the concatenation of the resolved elements, or
the first resolution error. -/
theorem buildLoop_eq_resolveAll (meta : AudioMeta) (es : List Element) :
    ∀ f : String,
      buildLoop meta f es = (resolveAll meta es).map (fun vs => f ++ concatAll vs) := by
  induction es with
  | nil => intro f; simp [buildLoop, resolveAll, concatAll, Except.map, String.append_empty]
  | cons e rest ih =>
    intro f
    cases e with
    | Tag t =>
      cases ht : t.read_from meta with
      | ok v =>
        simp only [buildLoop, resolveAll, resolveElement, ht, ih (f ++ v)]
        cases hr : resolveAll meta rest <;>
          simp [Except.map, concatAll, String.append_assoc]
      | error er =>
        simp [buildLoop, resolveAll, resolveElement, ht, Except.map]
    | Literal l =>
      simp only [buildLoop, resolveAll, resolveElement, ih (f ++ l)]
      cases hr : resolveAll meta rest <;>
        simp [Except.map, concatAll, String.append_assoc]

theorem buildLoop_missing (meta : AudioMeta) (t : Tag) (h₂ : t.absent meta)
    (es₂ : List Element) :
    ∀ (es₁ : List Element) (f : String),
      (∀ u : Tag, Element.Tag u ∈ es₁ → ¬ u.absent meta) →
      buildLoop meta f (es₁ ++ Element.Tag t :: es₂) = .error (.MissingTag t) := by
  intro es₁
  induction es₁ with
  | nil =>
    intro f _
    simp only [List.nil_append, buildLoop, read_from_absent h₂]
  | cons e rest ih =>
    intro f h₁
    cases e with
    | Tag u =>
      have hu : ¬ u.absent meta := h₁ u (List.mem_cons_self ..)
      obtain ⟨v, hv⟩ := read_from_present hu
      simp only [List.cons_append, buildLoop, hv]
      exact ih (f ++ v) (fun w hw => h₁ w (List.mem_cons_of_mem _ hw))
    | Literal l =>
      simp only [List.cons_append, buildLoop]
      exact ih (f ++ l) (fun w hw => h₁ w (List.mem_cons_of_mem _ hw))

theorem collectElements_ok (toks : List Token)
    (h : ∀ tok ∈ toks, ∃ e, elementOf tok = .ok e) :
    ∃ es, collectElements toks = .ok es := by
  induction toks with
  | nil => exact ⟨[], rfl⟩
  | cons tok rest ih =>
    obtain ⟨e, he⟩ := h tok (List.mem_cons_self ..)
    obtain ⟨es, hes⟩ := ih (fun u hu => h u (List.mem_cons_of_mem _ hu))
    exact ⟨e :: es, by simp [collectElements, he, hes]⟩

theorem collectElements_error (toks₂ : List Token) (er : Error)
    (tok : Token) (htok : elementOf tok = .error er) :
    ∀ toks₁ : List Token,
      (∀ u ∈ toks₁, ∃ e, elementOf u = .ok e) →
      collectElements (toks₁ ++ tok :: toks₂) = .error er := by
  intro toks₁
  induction toks₁ with
  | nil =>
    intro _
    simp only [List.nil_append, collectElements, htok]
  | cons u rest ih =>
    intro h
    obtain ⟨e, he⟩ := h u (List.mem_cons_self ..)
    have hrec := ih (fun w hw => h w (List.mem_cons_of_mem _ hw))
    simp only [List.cons_append, collectElements, he, List.append_eq, hrec]

theorem lower_key_head {k : List Char}
    (hlow : ∀ c ∈ k, isLowerAscii c = true) : k.head? ≠ some '%' := by
  cases k with
  | nil => simp
  | cons c cs =>
    have := isLowerAscii_ne_pct (hlow c (List.mem_cons_self ..))
    simp [this]

/-- Claim C1 counterexample: the claim that tokenization loses no
character even for a `%` not followed by a lowercase letter is false: on
the template `"%"` the scanner emits no token at all, so the concatenated
consumed text is empty and differs from the template. -/
theorem c1_counterexample :
    consumed (tokenize "%".data) ≠ "%".data := by
  have h : tokenize "%".data = [] := by simp [tokenize]
  rw [h]
  decide

/-- Claim C1 (amended): tokenization consumes the template in order with
no gaps and no overlaps, except that each `%` not immediately followed by
a lowercase ASCII letter is dropped and appears in no token: the
concatenation, in emission order, of the text consumed by each token
equals the template with exactly those stray `%` characters removed. -/
theorem c1_coverage_amended (cs : List Char) :
    consumed (tokenize cs) = removeStray cs :=
  consumed_tokenize cs

/-- Claim C2 counterexample: the template `"%"` contains no
field-reference token (it compiles to an empty element list), yet
evaluation returns `""`, not the template string `"%"` unchanged. -/
theorem c2_counterexample :
    Format.from_template "%" = .ok ⟨[]⟩ ∧
    Format.build_name ⟨[]⟩ emptyMeta = .ok "" ∧ ("" : String) ≠ "%" := by
  refine ⟨?_, rfl, by decide⟩
  simp [Format.from_template, tokenize, collectElements, Except.map]

/-- Claim C2 (amended): for every template string containing no `%`
character and every metadata record, compilation succeeds and evaluation
of the compiled template returns the template string unchanged. -/
theorem c2_no_pct_roundtrip (s : String) (meta : AudioMeta)
    (h : ∀ c ∈ s.data, c ≠ '%') :
    ∃ f, Format.from_template s = .ok f ∧ f.build_name meta = .ok s := by
  cases hs : s.data with
  | nil =>
    have hs' : s = "" := by
      conv_lhs => rw [show s = String.mk s.data from rfl]
      rw [hs]
    subst hs'
    exact ⟨⟨[]⟩, by simp [Format.from_template, tokenize, collectElements,
      Except.map], rfl⟩
  | cons c cs =>
    have hmem : ∀ a ∈ c :: cs, a ≠ '%' := fun a ha => h a (by rw [hs]; exact ha)
    have hc : c ≠ '%' := hmem c (List.mem_cons_self ..)
    have htake : (c :: cs).takeWhile notPct = c :: cs :=
      List.takeWhile_eq_self_iff.mpr (fun a ha => by simp [notPct, hmem a ha])
    have hdropn : (c :: cs).dropWhile notPct = [] :=
      List.dropWhile_eq_nil_iff.mpr (fun a ha => by simp [notPct, hmem a ha])
    have htok : tokenize (c :: cs) = [Token.lit (c :: cs)] := by
      rw [tokenize_litTok c cs hc, htake, hdropn, tokenize_nil]
    have hmk : String.mk (c :: cs) = s := by rw [← hs]
    refine ⟨⟨[Element.Literal s]⟩, ?_, ?_⟩
    · simp only [Format.from_template, hs, htok, collectElements, elementOf,
        Except.map, hmk]
    · show buildLoop meta "" [Element.Literal s] = .ok s
      simp only [buildLoop, String.empty_append]

/-- Claim C2 witness: the `%`-free template `"abc"` compiles and
evaluates to `"abc"` for the all-absent record. -/
theorem c2_witness :
    ∃ f, Format.from_template "abc" = .ok f ∧
      f.build_name emptyMeta = .ok "abc" :=
  c2_no_pct_roundtrip "abc" emptyMeta (by decide)

/-- Claim C3: if every field referenced before some element is present
in the record but the field `t` referenced by that element is absent,
evaluation of the whole compiled template fails with `MissingTag t` — the
first absent reference in element order wins, no partial output is
returned, and elements after it (arbitrary `es₂`, e.g. a present artist
value) are never consulted; the error's display text carries the field's
display name. -/
theorem c3_missing_first (es₁ es₂ : List Element) (t : Tag)
    (meta : AudioMeta)
    (h₁ : ∀ u : Tag, Element.Tag u ∈ es₁ → ¬ u.absent meta)
    (h₂ : t.absent meta) :
    Format.build_name ⟨es₁ ++ Element.Tag t :: es₂⟩ meta =
        .error (.MissingTag t) ∧
      Error.display (.MissingTag t) = "missing required tag: " ++ t.display :=
  ⟨buildLoop_missing meta t h₂ es₂ es₁ "" h₁, rfl⟩

/-- Claim C3 witness: for the compiled form of `"%album %artist"` and a
record with artist present but album absent, evaluation fails with
`MissingTag Album`. -/
theorem c3_witness :
    Format.build_name ⟨[Element.Tag Tag.Album, Element.Literal " ",
        Element.Tag Tag.Artist]⟩ bocMeta = .error (.MissingTag Tag.Album) :=
  (c3_missing_first [] [Element.Literal " ", Element.Tag Tag.Artist]
    Tag.Album bocMeta (by simp) rfl).1

/-- Claim C4: if the tokenization of a template contains a
field-reference token whose key (leading `%` removed) matches none of the
five recognized field names, and the field tokens before it are all
recognized, then compilation fails with `Error::Format` carrying exactly
that key text without the `%`; no compiled template is produced. -/
theorem c4_unknown_field (s : String) (toks₁ toks₂ : List Token)
    (k : List Char)
    (hsplit : tokenize s.data = toks₁ ++ Token.field k :: toks₂)
    (hknown : ∀ u, Token.field u ∈ toks₁ → ∃ t : Tag, String.mk u = t.name)
    (hbad : ∀ t : Tag, String.mk k ≠ t.name) :
    Format.from_template s = .error (.Format (String.mk k)) := by
  have hkmem : Token.field k ∈ tokenize s.data := by
    rw [hsplit]
    exact List.mem_append_right _ (List.mem_cons_self ..)
  obtain ⟨hkne, hklow⟩ := tokenize_field_mem hkmem
  have herr : elementOf (Token.field k) = .error (.Format (String.mk k)) := by
    simp [elementOf, from_str_unknown (lower_key_head hklow) hbad, Except.map]
  have hok : ∀ u ∈ toks₁, ∃ e, elementOf u = .ok e := by
    intro u hu
    cases u with
    | lit l => exact ⟨Element.Literal (String.mk l), rfl⟩
    | field kk =>
      obtain ⟨t, ht⟩ := hknown kk hu
      have hmem' : Token.field kk ∈ tokenize s.data := by
        rw [hsplit]
        exact List.mem_append_left _ hu
      obtain ⟨hne, hlow⟩ := tokenize_field_mem hmem'
      exact ⟨Element.Tag t,
        by simp [elementOf, (from_str_ok_iff (lower_key_head hlow) t).mpr ht,
          Except.map]⟩
  have hcol := collectElements_error toks₂ _ _ herr toks₁ hok
  simp [Format.from_template, hsplit, hcol, Except.map]

/-- Claim C4 witness: `compile("%bogus")` fails with the unknown-field
error carrying `"bogus"`. -/
theorem c4_witness :
    Format.from_template "%bogus" = .error (.Format "bogus") :=
  c4_unknown_field "%bogus" [] [] "bogus".data
    (by simp [tokenize, isLowerAscii])
    (by simp)
    (by intro t; cases t <;> decide)

/-- Claim C5: evaluation produces its output by concatenating, in
element order, each literal's text verbatim and each field reference's
resolved string (first error otherwise); in particular the template
`"%artist - %title"` with artist `"Boards of Canada"` and title
`"Roygbiv"` evaluates to exactly `"Boards of Canada - Roygbiv"`. -/
theorem c5_concatenation :
    (∀ (es : List Element) (meta : AudioMeta),
      Format.build_name ⟨es⟩ meta = (resolveAll meta es).map concatAll) ∧
    ∃ f, Format.from_template "%artist - %title" = .ok f ∧
      f.build_name bocMeta = .ok "Boards of Canada - Roygbiv" := by
  constructor
  · intro es meta
    show buildLoop meta "" es = _
    rw [buildLoop_eq_resolveAll meta es ""]
    cases hr : resolveAll meta es <;> simp [Except.map, String.empty_append]
  · refine ⟨⟨[Element.Tag .Artist, Element.Literal " - ", Element.Tag .Title]⟩,
      ?_, rfl⟩
    simp [Format.from_template, tokenize, isLowerAscii, notPct,
      collectElements, elementOf, Tag.from_str, Except.map]

/-- Claim C6: the `Track` and `Year` fields resolve to the canonical
decimal string representation (`toString`) of the record's integer value,
with no padding and no suffix, through the whole compile-evaluate
pipeline. -/
theorem c6_numeric_fields (meta : AudioMeta) (n : Nat) (y : Int)
    (hn : meta.track_number = some n) (hy : meta.year = some y) :
    (∃ f, Format.from_template "%track" = .ok f ∧
      f.build_name meta = .ok (toString n)) ∧
    (∃ f, Format.from_template "%year" = .ok f ∧
      f.build_name meta = .ok (toString y)) := by
  constructor
  · refine ⟨⟨[Element.Tag .Track]⟩, ?_, ?_⟩
    · simp [Format.from_template, tokenize, isLowerAscii, collectElements,
        elementOf, Tag.from_str, Except.map]
    · show buildLoop meta "" [Element.Tag .Track] = _
      simp [buildLoop, Tag.read_from, hn, String.empty_append]
  · refine ⟨⟨[Element.Tag .Year]⟩, ?_, ?_⟩
    · simp [Format.from_template, tokenize, isLowerAscii, collectElements,
        elementOf, Tag.from_str, Except.map]
    · show buildLoop meta "" [Element.Tag .Year] = _
      simp [buildLoop, Tag.read_from, hy, String.empty_append]

/-- Claim C6 witness: track number 7 under `"%track"` yields `"7"` and
year 1998 under `"%year"` yields `"1998"`. -/
theorem c6_witness :
    (∃ f, Format.from_template "%track" = .ok f ∧
      f.build_name numMeta = .ok "7") ∧
    (∃ f, Format.from_template "%year" = .ok f ∧
      f.build_name numMeta = .ok "1998") :=
  c6_numeric_fields numMeta 7 1998 rfl rfl

/-- Claim C7: parsing a field-reference token `%key` strips the leading
`%` and succeeds with tag `t` exactly when the remaining key equals `t`'s
canonical lowercase name (`album`, `artist`, `title`, `track`, `year`) —
a case-sensitive exact match, so no other spelling is accepted. -/
theorem c7_key_parsing (k : List Char) (t : Tag) (hk : k.head? ≠ some '%') :
    Tag.from_str (String.mk ('%' :: k)) = .ok t ↔ String.mk k = t.name :=
  from_str_ok_iff hk t

/-- Claim C7 witness: `"%album"` parses to `Album`. -/
theorem c7_witness : Tag.from_str "%album" = .ok Tag.Album :=
  (c7_key_parsing "album".data Tag.Album (by decide)).mpr rfl

/-- Claim C8: every literal token emitted by the tokenizer is nonempty,
contains no `%`, and is maximal: tokens are emitted in left-to-right scan
order (the tokens after it are exactly the tokenization of the remaining
input), and the remaining input after a literal is empty or starts with
`%`, so an adjacent run of non-`%` characters is never split across two
literal elements. -/
theorem c8_literal_elements (cs : List Char) (toks₁ : List Token)
    (l : List Char) (toks₂ : List Token)
    (h : tokenize cs = toks₁ ++ Token.lit l :: toks₂) :
    l ≠ [] ∧ (∀ c ∈ l, c ≠ '%') ∧
      ∃ rest, (l ++ rest) <:+ cs ∧ tokenize rest = toks₂ ∧
        (rest = [] ∨ ∃ r, rest = '%' :: r) :=
  tokenize_lit_maximal cs toks₁ l toks₂ h

/-- Claim C8 witness: in `"ab%3b"` the literal token `"3b"` (after the
dropped stray `%`) is nonempty, `%`-free and final. -/
theorem c8_witness :
    "3b".data ≠ [] ∧ (∀ c ∈ "3b".data, c ≠ '%') ∧
      ∃ rest, ("3b".data ++ rest) <:+ "ab%3b".data ∧ tokenize rest = [] ∧
        (rest = [] ∨ ∃ r, rest = '%' :: r) :=
  c8_literal_elements "ab%3b".data [Token.lit "ab".data] "3b".data []
    (by simp [tokenize, isLowerAscii, notPct])

/-- Claim C9: a `%` not immediately followed by a lowercase ASCII
letter is dropped by the scanner (tokenization continues as if it were
absent, so it appears in no emitted element); compilation of any template
terminates and succeeds provided every actual field key is recognized;
and compiling `"%"` yields the empty element list, whose evaluation
returns the empty string. -/
theorem c9_stray_pct_dropped :
    (∀ rest : List Char, rest.takeWhile isLowerAscii = [] →
      tokenize ('%' :: rest) = tokenize rest) ∧
    (∀ s : String,
      (∀ k, Token.field k ∈ tokenize s.data →
        ∃ t : Tag, String.mk k = t.name) →
      ∃ f, Format.from_template s = .ok f) ∧
    Format.from_template "%" = .ok ⟨[]⟩ ∧
    ∀ meta : AudioMeta, Format.build_name ⟨[]⟩ meta = .ok "" := by
  refine ⟨tokenize_stray, ?_, ?_, fun meta => rfl⟩
  · intro s hfields
    have hall : ∀ tok ∈ tokenize s.data, ∃ e, elementOf tok = .ok e := by
      intro tok htok
      cases tok with
      | lit l => exact ⟨Element.Literal (String.mk l), rfl⟩
      | field k =>
        obtain ⟨t, ht⟩ := hfields k htok
        obtain ⟨hne, hlow⟩ := tokenize_field_mem htok
        exact ⟨Element.Tag t,
          by simp [elementOf, (from_str_ok_iff (lower_key_head hlow) t).mpr ht,
            Except.map]⟩
    obtain ⟨es, hes⟩ := collectElements_ok _ hall
    exact ⟨⟨es⟩, by simp [Format.from_template, hes, Except.map]⟩
  · simp [Format.from_template, tokenize, collectElements, Except.map]

/-- Claim C9 witness: the stray `%` of `"%3b"` is dropped, and
`"a%3b"` still compiles successfully. -/
theorem c9_witness :
    tokenize ('%' :: "3b".data) = tokenize "3b".data ∧
    ∃ f, Format.from_template "a%3b" = .ok f := by
  constructor
  · exact c9_stray_pct_dropped.1 "3b".data (by decide)
  · refine c9_stray_pct_dropped.2.1 "a%3b" ?_
    intro k hk
    rw [show tokenize "a%3b".data = [Token.lit "a".data, Token.lit "3b".data]
      from by simp [tokenize, isLowerAscii, notPct]] at hk
    simp at hk

/-- Claim C10: compilation is deterministic — two successful
compilations of the same template string yield structurally equal
compiled templates. -/
theorem c10_deterministic (s : String) (f g : Format)
    (hf : Format.from_template s = .ok f)
    (hg : Format.from_template s = .ok g) : f = g :=
  Except.ok.inj (hf.symm.trans hg)

/-- Claim C10 witness: determinism at the concrete template
`"%artist"`. -/
theorem c10_witness :
    (⟨[Element.Tag Tag.Artist]⟩ : Format) = ⟨[Element.Tag Tag.Artist]⟩ :=
  c10_deterministic "%artist" _ _
    (by simp [Format.from_template, tokenize, isLowerAscii, collectElements,
      elementOf, Tag.from_str, Except.map])
    (by simp [Format.from_template, tokenize, isLowerAscii, collectElements,
      elementOf, Tag.from_str, Except.map])

end TagName
